import Mathlib

set_option maxRecDepth 100000

/-!
Shallow embedding of the Brainfuck REPL interpreter core
(`src/interpreter.rs`, `struct BFInt`).

Modelling conventions:
* `u8` cells are `Nat` values kept below 256 by explicit `% 256`
  (Rust `wrapping_add`/`wrapping_sub`).
* `usize` indices are `Nat`.
* A Rust panic (index out of bounds, integer underflow in debug builds,
  `unwrap()` on `None`, `todo!()`) is modelled as `none`: fallible code
  returns `Option`.
* The bytes printed by the `.` opcode are collected in an extra `output`
  field (the Rust code prints them directly; the field records that
  observable effect).
* Instruction bytes are their ASCII codes:
  `>` = 62, `<` = 60, `+` = 43, `-` = 45, `.` = 46, `,` = 44,
  `[` = 91, `]` = 93.
-/

/-- State of the interpreter, mirroring `struct BFInt`:
`prog`/`prog_ptr` the program bytes and program counter,
`mem`/`mem_ptr` the tape and data pointer,
`loop_map` the recorded (open, close) bracket pairs, plus the collected
output bytes. -/
structure BFInt where
  prog : List Nat
  prog_ptr : Nat
  mem : List Nat
  mem_ptr : Nat
  loop_map : List (Nat × Nat)
  output : List Nat
  deriving DecidableEq, Repr

namespace BFInt

/-- `BFInt::new()`: empty program, 1000 zeroed cells, pointers at 0. -/
def new : BFInt :=
  { prog := []
    prog_ptr := 0
    mem := List.replicate 1000 0
    mem_ptr := 0
    loop_map := []
    output := [] }

/-- Rust `Vec::resize(new_len, 0)`: truncates when shrinking, appends
zeros when growing. -/
def vecResize (v : List Nat) (newLen : Nat) : List Nat :=
  if newLen ≤ v.length then v.take newLen
  else v ++ List.replicate (newLen - v.length) 0

/-- `BFInt::ensure_allocated(index)`: when `index >= mem.len()`, resize
the tape to length `index` (exactly as the source does - to `index`, not
`index + 1`). -/
def ensure_allocated (mem : List Nat) (index : Nat) : List Nat :=
  if index ≥ mem.length then vecResize mem index else mem

/-- The scanning loop of `BFInt::extend_loop_map`.
`pp` is `self.prog_ptr`; the list argument is the not-yet-scanned suffix
of the program, `pc` the absolute index of its head (the loop starts at
`pc = self.prog_ptr` and runs to the end of the program).
On `[` it pushes `pc + pp` on the start stack; on `]` it pops the stack
(`none` models the `unwrap()` panic on an empty stack) and appends the
pair `(popped, pp + pc)` to the loop map.  Returns the final loop map
together with the final (discarded by the caller) local stack. -/
def scanGo (pp : Nat) : List Nat → Nat → List Nat → List (Nat × Nat) →
    Option (List (Nat × Nat) × List Nat)
  | [], _, stack, lm => some (lm, stack)
  | c :: rest, pc, stack, lm =>
    if c = 91 then scanGo pp rest (pc + 1) ((pc + pp) :: stack) lm
    else if c = 93 then
      match stack with
      | [] => none
      | t :: st => scanGo pp rest (pc + 1) st (lm ++ [(t, pp + pc)])
    else scanGo pp rest (pc + 1) stack lm

/-- `BFInt::extend_prog(new_prog)`: append the new bytes to the program,
then run `extend_loop_map`, which scans the (extended) program from
`prog_ptr` with a fresh local stack, extending `loop_map`. -/
def extend_prog (s : BFInt) (new_prog : List Nat) : Option BFInt :=
  let prog2 := s.prog ++ new_prog
  (scanGo s.prog_ptr (prog2.drop s.prog_ptr) s.prog_ptr [] s.loop_map).map
    (fun r => { s with prog := prog2, loop_map := r.1 })

/-- `BFInt::step()`: early return when `prog_ptr` is past the end,
otherwise dispatch on the current byte and finally advance `prog_ptr`
by one.  `none` models the panics of the source: `usize` underflow on
`<` at 0, out-of-bounds tape indexing, `todo!()` on `,`, and `unwrap()`
of a failed `loop_map` lookup on `[` / `]`. -/
def step (s : BFInt) : Option BFInt :=
  match s.prog.get? s.prog_ptr with
  | none => some s
  | some c =>
    if c = 62 then
      some { s with mem_ptr := s.mem_ptr + 1, prog_ptr := s.prog_ptr + 1 }
    else if c = 60 then
      if s.mem_ptr = 0 then none
      else some { s with mem_ptr := s.mem_ptr - 1, prog_ptr := s.prog_ptr + 1 }
    else if c = 43 then
      match s.mem.get? s.mem_ptr with
      | none => none
      | some v => some { s with mem := s.mem.set s.mem_ptr ((v + 1) % 256),
                                prog_ptr := s.prog_ptr + 1 }
    else if c = 45 then
      match s.mem.get? s.mem_ptr with
      | none => none
      | some v => some { s with mem := s.mem.set s.mem_ptr ((v + 255) % 256),
                                prog_ptr := s.prog_ptr + 1 }
    else if c = 46 then
      match s.mem.get? s.mem_ptr with
      | none => none
      | some v => some { s with output := s.output ++ [v],
                                prog_ptr := s.prog_ptr + 1 }
    else if c = 44 then none
    else if c = 91 then
      match s.mem.get? s.mem_ptr with
      | none => none
      | some v =>
        if v = 0 then
          match s.loop_map.find? (fun pr => pr.1 == s.prog_ptr) with
          | none => none
          | some pr => some { s with prog_ptr := pr.2 + 1 }
        else some { s with prog_ptr := s.prog_ptr + 1 }
    else if c = 93 then
      match s.mem.get? s.mem_ptr with
      | none => none
      | some v =>
        if v ≠ 0 then
          match s.loop_map.find? (fun pr => pr.2 == s.prog_ptr) with
          | none => none
          | some pr => some { s with prog_ptr := pr.1 + 1 }
        else some { s with prog_ptr := s.prog_ptr + 1 }
    else some { s with prog_ptr := s.prog_ptr + 1 }

/-- `BFInt::run()`: `while prog_ptr < prog.len() { step() }`, made total
with explicit fuel; `none` is a panic inside `step` or fuel exhaustion
(the source loop not having terminated within `fuel` iterations). -/
def runFuel : Nat → BFInt → Option BFInt
  | 0, s => if s.prog_ptr < s.prog.length then none else some s
  | n + 1, s =>
    if s.prog_ptr < s.prog.length then (step s).bind (runFuel n)
    else some s

end BFInt

namespace BFInt

/-- The scenario program `++>+++[-<+>]` as ASCII codes. -/
def progScenario : List Nat := [43, 43, 62, 43, 43, 43, 91, 45, 60, 43, 62, 93]

/-- C2: extending a fresh engine with `++>+++[-<+>]` and running leaves
cell 0 = 5, cell 1 = 0, data pointer 1, and the engine halted
(program counter equal to the program length, 12). -/
theorem c2_scenario :
    ((extend_prog new progScenario).bind (runFuel 100)).map
      (fun s => (s.mem.take 2, s.mem_ptr, s.prog_ptr, s.prog.length))
      = some ([5, 0], 1, 12, 12) := by decide

/-- C4: on a fresh engine extended with `<`, the data pointer is 0 and
the step of the `<` instruction is a panic (`mem_ptr -= 1` underflows
the unsigned index), modelled as `none` - no recoverable
PointerUnderflow value is ever produced. -/
theorem c4_pointer_underflow_panics :
    (extend_prog new [60]).bind step = none := by decide

/-- C5: stepping a fresh engine extended with `[` alone (current cell 0,
no recorded match) panics on the failed loop-map lookup (`unwrap` of
`None`), modelled as `none`; and with `+[` (current cell nonzero) the
engine falls through and advances the program counter to 2, past the
unmatched bracket. Neither case reports UnmatchedOpenBracket. -/
theorem c5_unmatched_open_not_reported :
    (extend_prog new [91]).bind (runFuel 1) = none ∧
    ((extend_prog new [43, 91]).bind (runFuel 2)).map (fun s => s.prog_ptr)
      = some 2 := by decide

/-- C6: ensure_allocated grows the tape only to length `index`, not
`index + 1`: after ensure_allocated on a 1000-cell tape with index 1005
the length is 1005, so the postcondition len(cells) > index fails; at
index exactly 1000 the call leaves the length at 1000, again not
greater than the index. -/
theorem c6_ensure_allocated_off_by_one :
    (ensure_allocated (List.replicate 1000 0) 1005).length = 1005 ∧
    ¬ (ensure_allocated (List.replicate 1000 0) 1005).length > 1005 ∧
    (ensure_allocated (List.replicate 1000 0) 1000).length = 1000 ∧
    ¬ (ensure_allocated (List.replicate 1000 0) 1000).length > 1000 := by
  decide

/-- C7: stepping a fresh engine extended with `,` hits the source's
`todo!()` and panics (modelled as `none`): no byte is stored and the
program counter never advances. -/
theorem c7_comma_panics :
    (extend_prog new [44]).bind step = none := by decide

/-- C8: extending a fresh engine with `]` pops the empty bracket stack
(`unwrap` of `None`), a panic modelled as `none` - no recoverable
UnmatchedCloseBracket value is ever produced. -/
theorem c8_unmatched_close_panics :
    extend_prog new [93] = none := by decide

/-- C1 counterexample: on a fresh engine, extend `[]` then extend `+`
records the pair (0, 1) twice (the second extend rescans from
prog_ptr = 0), whereas a single extend of `[]+` records it once: the
two Loop Indexes differ. -/
theorem c1_counterexample :
    ((extend_prog new [91, 93]).bind (fun s => extend_prog s [43])).map
        (fun s => s.loop_map)
      ≠ (extend_prog new [91, 93, 43]).map (fun s => s.loop_map) := by
  decide

end BFInt

namespace BFInt

/-- Scanning a stretch of program bytes holding no bracket leaves the
loop map and the bracket stack unchanged. -/
theorem scanGo_ignores (pp : Nat) (l : List Nat)
    (hl : ∀ c ∈ l, c ≠ 91 ∧ c ≠ 93) :
    ∀ (pc : Nat) (st : List Nat) (lm : List (Nat × Nat)),
      scanGo pp l pc st lm = some (lm, st) := by
  induction l with
  | nil => intro pc st lm; rfl
  | cons c rest ih =>
    intro pc st lm
    obtain ⟨h91, h93⟩ := hl c (List.mem_cons_self c rest)
    simp only [scanGo, if_neg h91, if_neg h93]
    exact ih (fun d hd => hl d (List.mem_cons_of_mem c hd)) _ _ _

/-- Running `f` consecutive `>` instructions just moves both pointers
forward by `f`: with `f + g` fuel, after the stretch of `>` bytes the
run continues with fuel `g` from the shifted state.  The tape is never
touched, in particular it never grows. -/
theorem runFuel_gt_stretch (g : Nat) :
    ∀ (f : Nat) (s : BFInt) (n : Nat) (rest : List Nat),
      s.prog = List.replicate n 62 ++ rest → s.prog_ptr + f = n →
      runFuel (f + g) s
        = runFuel g { s with prog_ptr := n, mem_ptr := s.mem_ptr + f } := by
  intro f
  induction f with
  | zero =>
    intro s n rest h1 h2
    obtain ⟨prog, pp, mem, mp, lm, out⟩ := s
    simp only [Nat.add_zero] at h2 ⊢
    subst h2
    simp [Nat.zero_add]
  | succ f ih =>
    intro s n rest h1 h2
    obtain ⟨prog, pp, mem, mp, lm, out⟩ := s
    simp only at h1 h2
    subst h1
    have hpp : pp < n := by omega
    have hlen : pp < (List.replicate n 62 ++ rest).length := by
      simp [List.length_append, List.length_replicate]; omega
    have hget : (List.replicate n 62 ++ rest).get? pp = some 62 := by
      rw [List.get?_append (by simp [List.length_replicate]; exact hpp)]
      simp [List.get?_eq_getElem?, List.getElem?_replicate_of_lt hpp]
    rw [show f + 1 + g = (f + g) + 1 by omega]
    simp only [runFuel, hlen, if_pos]
    simp only [step, hget]
    norm_num
    rw [ih _ n rest (by simp) (by simp; omega)]
    have hmp : mp + 1 + f = mp + (f + 1) := by omega
    simp [hmp]

/-- On a fresh engine the scan of extend_prog starts at position 0 with
an empty stack and an empty loop map, over exactly the new bytes. -/
theorem extend_prog_fresh (l : List Nat) :
    extend_prog new l = (scanGo 0 l 0 [] []).map
      (fun r => ⟨l, 0, List.replicate 1000 0, 0, r.1, []⟩) := rfl

/-- C3: the tape never auto-grows.  Extending a fresh engine with 1000
`>` instructions and running leaves the data pointer at 1000 while the
tape length is still 1000, violating len(cells) > dp; appending a
further `+` makes the next step index out of bounds, a panic (`none`).
ensure_allocated is never called by step. -/
theorem c3_no_autogrow :
    ((extend_prog new (List.replicate 1000 62)).bind (runFuel 1000)).map
        (fun s => (s.mem_ptr, s.mem.length)) = some (1000, 1000) ∧
    (extend_prog new (List.replicate 1000 62 ++ [43])).bind (runFuel 1001)
      = none := by
  have hnb : ∀ c ∈ List.replicate 1000 62, c ≠ 91 ∧ c ≠ 93 := by
    intro c hc
    have := List.eq_of_mem_replicate hc
    subst this
    exact ⟨by decide, by decide⟩
  have hnb2 : ∀ c ∈ List.replicate 1000 62 ++ [43], c ≠ 91 ∧ c ≠ 93 := by
    intro c hc
    rcases List.mem_append.mp hc with h | h
    · exact hnb c h
    · simp at h
      subst h
      exact ⟨by decide, by decide⟩
  have hscan1 : scanGo 0 (List.replicate 1000 62) 0 [] [] = some ([], []) :=
    scanGo_ignores 0 _ hnb 0 [] []
  have hscan2 : scanGo 0 (List.replicate 1000 62 ++ [43]) 0 [] []
      = some ([], []) := scanGo_ignores 0 _ hnb2 0 [] []
  constructor
  · have hext : extend_prog new (List.replicate 1000 62)
        = some ⟨List.replicate 1000 62, 0, List.replicate 1000 0, 0, [], []⟩ := by
      rw [extend_prog_fresh, hscan1]
      rfl
    rw [hext, Option.some_bind]
    have hrun := runFuel_gt_stretch 0 1000
      ⟨List.replicate 1000 62, 0, List.replicate 1000 0, 0, [], []⟩ 1000 []
      (List.append_nil _).symm (Nat.zero_add 1000)
    simp only [Nat.add_zero] at hrun
    rw [hrun]
    decide
  · have hext : extend_prog new (List.replicate 1000 62 ++ [43])
        = some ⟨List.replicate 1000 62 ++ [43], 0, List.replicate 1000 0, 0,
                [], []⟩ := by
      rw [extend_prog_fresh, hscan2]
      rfl
    rw [hext, Option.some_bind]
    have hrun := runFuel_gt_stretch 1 1000
      ⟨List.replicate 1000 62 ++ [43], 0, List.replicate 1000 0, 0, [], []⟩
      1000 [43] rfl (Nat.zero_add 1000)
    have h1001 : (1000 : Nat) + 1 = 1001 := rfl
    rw [h1001] at hrun
    rw [hrun]
    decide

end BFInt

namespace BFInt

/-- C10: extend_prog only appends to the program and rebuilds the loop
map: whenever it succeeds, the tape, the data pointer, the program
counter and the output are unchanged and the old program bytes are a
prefix of the new program (exactly the new bytes are appended). -/
theorem c10_extend_prog_frame (s : BFInt) (l : List Nat) (t : BFInt)
    (h : extend_prog s l = some t) :
    t.mem = s.mem ∧ t.mem_ptr = s.mem_ptr ∧ t.prog_ptr = s.prog_ptr ∧
    t.output = s.output ∧ t.prog = s.prog ++ l := by
  have h2 : (scanGo s.prog_ptr ((s.prog ++ l).drop s.prog_ptr)
        s.prog_ptr [] s.loop_map).map
      (fun r => { s with prog := s.prog ++ l, loop_map := r.1 }) = some t := h
  cases hscan : scanGo s.prog_ptr ((s.prog ++ l).drop s.prog_ptr)
      s.prog_ptr [] s.loop_map with
  | none => rw [hscan] at h2; simp at h2
  | some r =>
    rw [hscan] at h2
    simp only [Option.map_some'] at h2
    cases Option.some.inj h2
    exact ⟨rfl, rfl, rfl, rfl, rfl⟩

/-- Witness for C10 at the fresh engine and the single byte `+`. -/
theorem c10_extend_prog_frame_witness :
    (⟨[43], 0, List.replicate 1000 0, 0, [], []⟩ : BFInt).mem = new.mem ∧
    (⟨[43], 0, List.replicate 1000 0, 0, [], []⟩ : BFInt).mem_ptr
      = new.mem_ptr ∧
    (⟨[43], 0, List.replicate 1000 0, 0, [], []⟩ : BFInt).prog_ptr
      = new.prog_ptr ∧
    (⟨[43], 0, List.replicate 1000 0, 0, [], []⟩ : BFInt).output
      = new.output ∧
    (⟨[43], 0, List.replicate 1000 0, 0, [], []⟩ : BFInt).prog
      = new.prog ++ [43] :=
  c10_extend_prog_frame new [43] _ rfl

end BFInt

namespace BFInt

/-- The bracket scan processes an appended range by continuing from the
state (stack, loop map, position) reached at the end of the first
range. -/
theorem scanGo_append (pp : Nat) (xs : List Nat) :
    ∀ (ys : List Nat) (pc : Nat) (st : List Nat) (lm : List (Nat × Nat)),
      scanGo pp (xs ++ ys) pc st lm
        = (scanGo pp xs pc st lm).bind
            (fun r => scanGo pp ys (pc + xs.length) r.2 r.1) := by
  induction xs with
  | nil =>
    intro ys pc st lm
    simp [scanGo]
  | cons c xs ih =>
    intro ys pc st lm
    have harith : pc + 1 + xs.length = pc + (xs.length + 1) := by omega
    by_cases h91 : c = 91
    · simp only [List.cons_append, scanGo, if_pos h91, List.length_cons,
        List.append_eq]
      rw [ih, harith]
    · by_cases h93 : c = 93
      · cases st with
        | nil =>
          simp [List.cons_append, scanGo, h91, h93]
        | cons t st2 =>
          simp only [List.cons_append, scanGo, if_neg h91, if_pos h93,
            List.length_cons, List.append_eq]
          rw [ih, harith]
      · simp only [List.cons_append, scanGo, if_neg h91, if_neg h93,
          List.length_cons, List.append_eq]
        rw [ih, harith]

/-- The loop-map accumulator of the bracket scan only ever grows at the
end: scanning with accumulator `lm` produces `lm ++` (the pairs produced
when scanning with an empty accumulator). -/
theorem scanGo_acc (pp : Nat) (xs : List Nat) :
    ∀ (pc : Nat) (st : List Nat) (lm : List (Nat × Nat)),
      scanGo pp xs pc st lm
        = (scanGo pp xs pc st []).map (fun r => (lm ++ r.1, r.2)) := by
  induction xs with
  | nil => intro pc st lm; simp [scanGo]
  | cons c xs ih =>
    intro pc st lm
    by_cases h91 : c = 91
    · simp only [scanGo, if_pos h91]
      rw [ih]
    · by_cases h93 : c = 93
      · cases st with
        | nil => simp [scanGo, h91, h93]
        | cons t st2 =>
          simp only [scanGo, if_neg h91, if_pos h93, List.nil_append]
          rw [ih ((pc : Nat) + 1) st2 (lm ++ [(t, pp + pc)]),
              ih ((pc : Nat) + 1) st2 [(t, pp + pc)]]
          cases scanGo pp xs (pc + 1) st2 [] <;> simp
      · simp only [scanGo, if_neg h91, if_neg h93]
        rw [ih]

/-- Searching a list whose prefix is duplicated gives the same result as
searching the list itself: the first match is unchanged. -/
theorem find?_dup_prefix {α : Type} (p : α → Bool) (l r : List α) :
    List.find? p (l ++ (l ++ r)) = List.find? p (l ++ r) := by
  simp only [List.find?_append]
  cases List.find? p l <;> rfl

/-- Two loop maps giving the same result on every linear search are
interchangeable for step: the executions agree except that each keeps
its own loop map. -/
theorem step_loop_map_congr (prog : List Nat) (pp : Nat) (mem : List Nat)
    (mp : Nat) (out : List Nat) (lm1 lm2 : List (Nat × Nat))
    (hf : ∀ p : Nat × Nat → Bool, lm1.find? p = lm2.find? p) :
    step ⟨prog, pp, mem, mp, lm1, out⟩
      = Option.map (fun u => { u with loop_map := lm1 })
          (step ⟨prog, pp, mem, mp, lm2, out⟩) := by
  simp only [step]
  cases prog.get? pp with
  | none => rfl
  | some c =>
    by_cases h62 : c = 62
    · simp only [if_pos h62]; rfl
    · simp only [if_neg h62]
      by_cases h60 : c = 60
      · simp only [if_pos h60]
        by_cases hmp : mp = 0
        · simp only [if_pos hmp]; rfl
        · simp only [if_neg hmp]; rfl
      · simp only [if_neg h60]
        by_cases h43 : c = 43
        · simp only [if_pos h43]
          cases mem.get? mp <;> rfl
        · simp only [if_neg h43]
          by_cases h45 : c = 45
          · simp only [if_pos h45]
            cases mem.get? mp <;> rfl
          · simp only [if_neg h45]
            by_cases h46 : c = 46
            · simp only [if_pos h46]
              cases mem.get? mp <;> rfl
            · simp only [if_neg h46]
              by_cases h44 : c = 44
              · simp only [if_pos h44]; rfl
              · simp only [if_neg h44]
                by_cases h91 : c = 91
                · simp only [if_pos h91]
                  cases mem.get? mp with
                  | none => rfl
                  | some v =>
                    by_cases hv : v = 0
                    · simp only [if_pos hv]
                      rw [hf (fun pr => pr.1 == pp)]
                      cases lm2.find? (fun pr => pr.1 == pp) <;> rfl
                    · simp only [if_neg hv]; rfl
                · simp only [if_neg h91]
                  by_cases h93 : c = 93
                  · simp only [if_pos h93]
                    cases mem.get? mp with
                    | none => rfl
                    | some v =>
                      by_cases hv : v ≠ 0
                      · simp only [if_pos hv]
                        rw [hf (fun pr => pr.2 == pp)]
                        cases lm2.find? (fun pr => pr.2 == pp) <;> rfl
                      · simp only [if_neg hv]; rfl
                  · simp only [if_neg h93]; rfl

/-- step never modifies the loop map. -/
theorem step_preserves_loop_map (prog : List Nat) (pp : Nat)
    (mem : List Nat) (mp : Nat) (out : List Nat) (lm : List (Nat × Nat))
    (u : BFInt) (h : step ⟨prog, pp, mem, mp, lm, out⟩ = some u) :
    u.loop_map = lm := by
  have hc := step_loop_map_congr prog pp mem mp out lm lm (fun p => rfl)
  rw [h] at hc
  simp only [Option.map_some'] at hc
  have h2 := Option.some.inj hc
  rw [h2]

/-- Two loop maps giving the same result on every linear search are
interchangeable for whole runs, with any amount of fuel. -/
theorem runFuel_loop_map_congr (lm1 lm2 : List (Nat × Nat))
    (hf : ∀ p : Nat × Nat → Bool, lm1.find? p = lm2.find? p) :
    ∀ (n : Nat) (prog : List Nat) (pp : Nat) (mem : List Nat) (mp : Nat)
      (out : List Nat),
      runFuel n ⟨prog, pp, mem, mp, lm1, out⟩
        = Option.map (fun u => { u with loop_map := lm1 })
            (runFuel n ⟨prog, pp, mem, mp, lm2, out⟩) := by
  intro n
  induction n with
  | zero =>
    intro prog pp mem mp out
    simp only [runFuel]
    by_cases h : pp < prog.length
    · simp only [if_pos h]; rfl
    · simp only [if_neg h]; rfl
  | succ n ih =>
    intro prog pp mem mp out
    simp only [runFuel]
    by_cases h : pp < prog.length
    · simp only [if_pos h]
      rw [step_loop_map_congr prog pp mem mp out lm1 lm2 hf]
      cases hs : step ⟨prog, pp, mem, mp, lm2, out⟩ with
      | none => rfl
      | some u =>
        obtain ⟨pu, ppu, mu, mpu, lmu, ou⟩ := u
        have hlmu : lmu = lm2 :=
          step_preserves_loop_map prog pp mem mp out lm2 _ hs
        subst hlmu
        simp only [Option.map_some', Option.some_bind]
        exact ih pu ppu mu mpu ou
    · simp only [if_neg h]; rfl

end BFInt

namespace BFInt

/-- For any engine whose program counter is 0 (a fresh engine that has
only been extended, never stepped), extend_prog scans the whole extended
program from position 0, extending the current loop map. -/
theorem extend_prog_zero_ptr (prog : List Nat) (l : List Nat)
    (mem : List Nat) (mp : Nat) (lm : List (Nat × Nat)) (out : List Nat) :
    extend_prog ⟨prog, 0, mem, mp, lm, out⟩ l
      = (scanGo 0 (prog ++ l) 0 [] lm).map
          (fun r => ⟨prog ++ l, 0, mem, mp, r.1, out⟩) := rfl

/-- C1 (amended): on a fresh engine, for every split a/b (including
splits separating a `[` from its `]`), whenever extend(a+b) succeeds,
extend(a); extend(b) also succeeds and yields the same program, program
counter, tape, data pointer and output; its Loop Index is the direct
one preceded by extra duplicate pairs (those completed inside a), so
every linear-search lookup agrees, and running with any amount of fuel
gives results identical up to that Loop Index difference - but the Loop
Index itself is not equal, as `c1_counterexample` shows. -/
theorem c1_extend_split (a b : List Nat) (s2 : BFInt)
    (hd : extend_prog new (a ++ b) = some s2) :
    ∃ s1 : BFInt,
      (extend_prog new a).bind (fun s => extend_prog s b) = some s1 ∧
      s1.prog = s2.prog ∧ s1.prog_ptr = s2.prog_ptr ∧ s1.mem = s2.mem ∧
      s1.mem_ptr = s2.mem_ptr ∧ s1.output = s2.output ∧
      (∃ la : List (Nat × Nat), s1.loop_map = la ++ s2.loop_map) ∧
      (∀ p : Nat × Nat → Bool,
        s1.loop_map.find? p = s2.loop_map.find? p) ∧
      ∀ n : Nat,
        runFuel n s1
          = Option.map (fun u => { u with loop_map := s1.loop_map })
              (runFuel n s2) := by
  rw [extend_prog_fresh] at hd
  cases hD : scanGo 0 (a ++ b) 0 [] [] with
  | none =>
    rw [hD] at hd
    exact Option.noConfusion hd
  | some rD =>
    rw [hD] at hd
    simp only [Option.map_some'] at hd
    have hs2 := Option.some.inj hd
    subst hs2
    have hsplit := scanGo_append 0 a b 0 [] []
    rw [hD] at hsplit
    cases hA : scanGo 0 a 0 [] [] with
    | none =>
      rw [hA] at hsplit
      exact Option.noConfusion hsplit
    | some rA =>
      rw [hA] at hsplit
      simp only [Option.some_bind] at hsplit
      have hacc := scanGo_acc 0 b (0 + a.length) rA.2 rA.1
      rw [← hsplit] at hacc
      cases hB : scanGo 0 b (0 + a.length) rA.2 [] with
      | none =>
        rw [hB] at hacc
        exact Option.noConfusion hacc
      | some rB =>
        rw [hB] at hacc
        simp only [Option.map_some'] at hacc
        have hrD := Option.some.inj hacc
        have hrD1 : rD.1 = rA.1 ++ rB.1 := by rw [hrD]
        have hseq : (extend_prog new a).bind (fun s => extend_prog s b)
            = some ⟨a ++ b, 0, List.replicate 1000 0, 0, rA.1 ++ rD.1, []⟩ := by
          rw [extend_prog_fresh, hA]
          simp only [Option.map_some', Option.some_bind]
          rw [extend_prog_zero_ptr]
          rw [scanGo_acc 0 (a ++ b) 0 [] rA.1, hD]
          simp only [Option.map_some']
        have hfind : ∀ p : Nat × Nat → Bool,
            List.find? p (rA.1 ++ rD.1) = List.find? p rD.1 := by
          intro p
          rw [hrD1]
          exact find?_dup_prefix p rA.1 rB.1
        refine ⟨_, hseq, rfl, rfl, rfl, rfl, rfl, ⟨rA.1, rfl⟩, hfind, ?_⟩
        intro n
        exact runFuel_loop_map_congr (rA.1 ++ rD.1) rD.1 hfind n (a ++ b) 0
          (List.replicate 1000 0) 0 []

/-- Witness for C1 at the split a = `[`, b = `]` (the split separating a
loop head from its close bracket). -/
theorem c1_extend_split_witness :
    ∃ s1 : BFInt,
      (extend_prog new [91]).bind (fun s => extend_prog s [93]) = some s1 ∧
      s1.prog = (⟨[91, 93], 0, List.replicate 1000 0, 0, [(0, 1)], []⟩
        : BFInt).prog ∧
      s1.prog_ptr = (⟨[91, 93], 0, List.replicate 1000 0, 0, [(0, 1)], []⟩
        : BFInt).prog_ptr ∧
      s1.mem = (⟨[91, 93], 0, List.replicate 1000 0, 0, [(0, 1)], []⟩
        : BFInt).mem ∧
      s1.mem_ptr = (⟨[91, 93], 0, List.replicate 1000 0, 0, [(0, 1)], []⟩
        : BFInt).mem_ptr ∧
      s1.output = (⟨[91, 93], 0, List.replicate 1000 0, 0, [(0, 1)], []⟩
        : BFInt).output ∧
      (∃ la : List (Nat × Nat), s1.loop_map
        = la ++ (⟨[91, 93], 0, List.replicate 1000 0, 0, [(0, 1)], []⟩
          : BFInt).loop_map) ∧
      (∀ p : Nat × Nat → Bool, s1.loop_map.find? p
        = (⟨[91, 93], 0, List.replicate 1000 0, 0, [(0, 1)], []⟩
          : BFInt).loop_map.find? p) ∧
      ∀ n : Nat,
        runFuel n s1
          = Option.map (fun u => { u with loop_map := s1.loop_map })
              (runFuel n
                (⟨[91, 93], 0, List.replicate 1000 0, 0, [(0, 1)], []⟩
                  : BFInt)) :=
  c1_extend_split [91] [93]
    ⟨[91, 93], 0, List.replicate 1000 0, 0, [(0, 1)], []⟩ rfl

end BFInt

namespace BFInt

/-- The program `[]` repeated n times. -/
def progPairs : Nat → List Nat
  | 0 => []
  | n + 1 => progPairs n ++ [91, 93]

/-- The loop map the scan records for progPairs n: the pairs
(0,1), (2,3), ..., (2(n-1), 2n-1) in order. -/
def lmPairs : Nat → List (Nat × Nat)
  | 0 => []
  | n + 1 => lmPairs n ++ [(2 * n, 2 * n + 1)]

/-- Cost model of the linear search `self.loop_map.iter().find(...)`
used by step for `[` and `]`: the number of recorded pairs the scan
examines before returning (all of them when nothing matches). -/
def findCost {α : Type} (p : α → Bool) : List α → Nat
  | [] => 0
  | x :: xs => if p x then 1 else 1 + findCost p xs

theorem progPairs_length (n : Nat) : (progPairs n).length = 2 * n := by
  induction n with
  | zero => rfl
  | succ n ih =>
    simp only [progPairs, List.length_append, ih, List.length_cons,
      List.length_nil]
    omega

theorem scanGo_progPairs (n : Nat) :
    scanGo 0 (progPairs n) 0 [] [] = some (lmPairs n, []) := by
  induction n with
  | zero => rfl
  | succ n ih =>
    rw [progPairs, scanGo_append 0 (progPairs n) [91, 93] 0 [] [], ih]
    simp only [Option.some_bind, progPairs_length]
    simp [scanGo, lmPairs]

theorem extend_progPairs (n : Nat) :
    extend_prog new (progPairs n)
      = some ⟨progPairs n, 0, List.replicate 1000 0, 0, lmPairs n, []⟩ := by
  rw [extend_prog_fresh, scanGo_progPairs]
  rfl

theorem findCost_append_nomatch {α : Type} (p : α → Bool) (l m : List α)
    (hl : ∀ x ∈ l, p x = false) :
    findCost p (l ++ m) = l.length + findCost p m := by
  induction l with
  | nil => simp [findCost]
  | cons x l ih =>
    have hx : p x = false := hl x (List.mem_cons_self x l)
    simp only [List.cons_append, findCost, hx, List.length_cons,
      List.append_eq, Bool.false_eq_true, if_false]
    rw [ih (fun y hy => hl y (List.mem_cons_of_mem x hy))]
    omega

theorem lmPairs_length (n : Nat) : (lmPairs n).length = n := by
  induction n with
  | zero => rfl
  | succ n ih => simp [lmPairs, ih]

theorem lmPairs_fst_lt (n : Nat) : ∀ pr ∈ lmPairs n, pr.1 < 2 * n := by
  induction n with
  | zero => intro pr h; cases h
  | succ n ih =>
    intro pr h
    rw [lmPairs] at h
    rcases List.mem_append.mp h with h1 | h2
    · have := ih pr h1
      omega
    · simp only [List.mem_singleton] at h2
      rw [h2]
      show 2 * n < 2 * (n + 1)
      omega

theorem findCost_lmPairs (n : Nat) :
    findCost (fun pr => pr.1 == 2 * n) (lmPairs (n + 1)) = n + 1 := by
  rw [lmPairs]
  rw [findCost_append_nomatch]
  · rw [lmPairs_length]
    simp [findCost]
  · intro pr hpr
    have := lmPairs_fst_lt n pr hpr
    simp only [beq_eq_false_iff_ne]
    omega

/-- C9 (amended): the loop-map lookup used by step is a linear scan,
not O(1): after extending a fresh engine with the program `[]` repeated
n+1 times, looking up the match of the bracket at source position 2n
examines all n+1 recorded pairs - the cost grows linearly with the
number of recorded pairs (`c9_counterexample` shows no constant bounds
it). -/
theorem c9_lookup_cost_linear (n : Nat) (s : BFInt)
    (h : extend_prog new (progPairs (n + 1)) = some s) :
    findCost (fun pr => pr.1 == 2 * n) s.loop_map = n + 1 := by
  rw [extend_progPairs] at h
  have h2 := Option.some.inj h
  rw [← h2]
  exact findCost_lmPairs n

/-- Witness for C9 at n = 2: three pairs, last lookup examines 3. -/
theorem c9_lookup_cost_linear_witness :
    findCost (fun pr => pr.1 == 2 * 2)
      ((⟨progPairs 3, 0, List.replicate 1000 0, 0, lmPairs 3, []⟩
        : BFInt)).loop_map = 2 + 1 :=
  c9_lookup_cost_linear 2 _ (extend_progPairs 3)

/-- C9 counterexample (negation of the O(1) claim): no constant bounds
the number of pairs the loop-map lookup examines - for every candidate
bound c, the program `[]` repeated c+1 times makes the lookup of the
last bracket examine c+1 > c pairs. -/
theorem c9_counterexample :
    ¬ ∃ c : Nat, ∀ (n : Nat) (s : BFInt),
        extend_prog new (progPairs (n + 1)) = some s →
        findCost (fun pr => pr.1 == 2 * n) s.loop_map ≤ c := by
  rintro ⟨c, hc⟩
  have h := hc c ⟨progPairs (c + 1), 0, List.replicate 1000 0, 0,
    lmPairs (c + 1), []⟩ (extend_progPairs (c + 1))
  have h2 : findCost (fun pr => pr.1 == 2 * c) (lmPairs (c + 1)) ≤ c := h
  rw [findCost_lmPairs] at h2
  omega

end BFInt
